import Mathlib

/-!
Shallow embedding of the suffix-sort core (src/core/src/lib.rs).

Strings are modelled as lists of Unicode scalar values (`List Char`); the byte
indices the Rust code manipulates are recovered through explicit UTF-8 byte
lengths, and the panics of Rust byte-range slicing are modelled by
`Option`-valued slicing functions.
-/

/-- Rust `char::len_utf8`: the UTF-8 encoded size of a scalar value. -/
def utf8Len (c : Char) : Nat :=
  if c.toNat < 0x80 then 1
  else if c.toNat < 0x800 then 2
  else if c.toNat < 0x10000 then 3
  else 4

/-- Total UTF-8 byte length of a string (Rust `str::len`). -/
def byteLen (l : List Char) : Nat := (l.map utf8Len).sum

/-- Rust `str::char_indices`, generalized to start at byte offset `n`. -/
def charIndicesFrom (n : Nat) : List Char → List (Nat × Char)
  | [] => []
  | c :: cs => (n, c) :: charIndicesFrom (n + utf8Len c) cs

/-- Rust `str::char_indices`: each character paired with its byte offset. -/
def charIndices (l : List Char) : List (Nat × Char) := charIndicesFrom 0 l

/-- Rust slice `&line[s..]`: drop the first `s` bytes; `none` models the panic
on an index that is out of range or not on a character boundary. -/
def sliceFrom? : List Char → Nat → Option (List Char)
  | l, 0 => some l
  | [], _ + 1 => none
  | c :: cs, s + 1 =>
    if utf8Len c ≤ s + 1 then sliceFrom? cs (s + 1 - utf8Len c) else none

/-- Keep the first `e` bytes of a string; `none` models the panic on an index
that is out of range or not on a character boundary. -/
def sliceTake? : List Char → Nat → Option (List Char)
  | _, 0 => some []
  | [], _ + 1 => none
  | c :: cs, e + 1 =>
    if utf8Len c ≤ e + 1 then (sliceTake? cs (e + 1 - utf8Len c)).map (c :: ·) else none

/-- Rust slice `&line[s..e]` by byte range. -/
def sliceBytes? (l : List Char) (s e : Nat) : Option (List Char) :=
  if s ≤ e then (sliceFrom? l s).bind (fun t => sliceTake? t (e - s)) else none

/-- The external Unicode operations the core calls (Rust `char::is_alphabetic`,
`char::is_whitespace`, `str::to_lowercase`, and the `unicode_normalization`
crate's `nfc`). These are library code outside this repository, so the
embedding abstracts over them; `unicodeModel` below is a concrete instance. -/
structure CharModel where
  isAlphabetic : Char → Bool
  isWhitespace : Char → Bool
  nfc : List Char → List Char
  toLowercase : List Char → List Char

/-- `SortConfig` (src/core/src/lib.rs, lines 5-16). -/
structure SortConfig where
  ignore_case : Bool
  use_entire_line : Bool
  dictionary_order : Bool
  reverse : Bool
  stable : Bool
  right_align : Bool
  exclude_no_word : Bool
  word_only : Bool
  normalize : Bool
deriving DecidableEq

/-- `SortConfig::default` (src/core/src/lib.rs, lines 294-308). -/
def SortConfig.default : SortConfig :=
  ⟨false, false, false, false, false, false, false, false, false⟩

/-- `ProcessedLine` (src/core/src/lib.rs, lines 18-25). -/
structure ProcessedLine where
  original : List Char
  key : List Char
  index : Nat
  visual_start : Option Nat
  word_length : Option Nat
deriving DecidableEq

/-- `PaddingInfo` (src/core/src/lib.rs, lines 27-31). -/
structure PaddingInfo where
  max_value : Nat
  use_end_pos : Bool
deriving DecidableEq

/-- `SortConfig::prepare_key`: NFC-normalize if `normalize` is set, then
lowercase if `ignore_case` is set. -/
def prepare_key (M : CharModel) (cfg : SortConfig) (key : List Char) : List Char :=
  let normalized := if cfg.normalize then M.nfc key else key
  if cfg.ignore_case then M.toLowercase normalized else normalized

/-- The comparison loop inside `SortConfig::get_comparer`, acting on the
already-reversed character sequences of the two keys. -/
def comparerLoop : List Char → List Char → Ordering
  | a :: as, b :: bs =>
    if compare a b ≠ Ordering.eq then compare a b else comparerLoop as bs
  | _ :: _, [] => Ordering.gt
  | [], _ :: _ => Ordering.lt
  | [], [] => Ordering.eq

/-- `SortConfig::get_comparer`: compare the keys from the last character
backward (`chars().rev()` is modelled by `List.reverse`), then apply the
`reverse` flag to the final result. -/
def get_comparer (cfg : SortConfig) (a b : List Char) : Ordering :=
  let ordering := comparerLoop a.reverse b.reverse
  if cfg.reverse then ordering.swap else ordering

/-- The scan loop of `process_lines_standard`'s dictionary branch
(src/core/src/lib.rs, lines 158-173), with state (word_end, visual_length,
in_word), over the remaining (byte index, character) pairs. -/
def dictLoop (M : CharModel) :
    List (Nat × Char) → Nat → Nat → Bool → Nat × Nat
  | [], wordEnd, visualLength, _ => (wordEnd, visualLength)
  | (idx, c) :: rest, wordEnd, visualLength, inWord =>
    if M.isAlphabetic c then
      dictLoop M rest (idx + utf8Len c) (visualLength + 1) true
    else if c == '-' && inWord then
      dictLoop M rest (idx + utf8Len c) (visualLength + 1) inWord
    else if inWord then (wordEnd, visualLength)
    else dictLoop M rest wordEnd visualLength inWord

/-- Dictionary-order word location in `process_lines_standard` (lines 146-177):
the byte index of the first alphabetic character, the end byte index returned
by the scan loop, and the accumulated visual length.  As in the source, the
scan loop iterates over `line.char_indices().skip(start)` — `skip` drops
`start` *items* of the iterator even though `start` is a *byte* index. -/
def dictIndices (M : CharModel) (line : List Char) : Option (Nat × Nat × Nat) :=
  ((charIndices line).find? (fun p => M.isAlphabetic p.2)).map (fun p =>
    let r := dictLoop M ((charIndices line).drop p.1) p.1 0 false
    (p.1, r.1, r.2))

/-- The first-word scan of `process_lines_standard`'s default branch
(lines 183-197), with state (start, end, in_word). -/
def stdLoop (M : CharModel) :
    List (Nat × Char) → Nat → Nat → Bool → Nat × Nat × Bool
  | [], start, stop, inWord => (start, stop, inWord)
  | (idx, c) :: rest, start, stop, inWord =>
    if M.isWhitespace c then
      if inWord then (start, idx, inWord)
      else stdLoop M rest start stop inWord
    else if !inWord then stdLoop M rest idx stop true
    else stdLoop M rest start stop inWord

/-- The (start, end, in_word) triple of the default branch for a whole line. -/
def stdIndices (M : CharModel) (line : List Char) : Nat × Nat × Bool :=
  stdLoop M (charIndices line) 0 0 false

/-- The per-line (key, visual_start, word_length) computation of
`process_lines_standard` (lines 144-209).  The `.getD []` after each slice
stands for the panic on an invalid byte range; the slice is proved to succeed
on every input, so the default is unreachable. -/
def extractStandard (M : CharModel) (cfg : SortConfig) (line : List Char) :
    List Char × Option Nat × Option Nat :=
  if cfg.dictionary_order then
    match dictIndices M line with
    | some (start, wordEnd, visualLength) =>
      let word := (sliceBytes? line start wordEnd).getD []
      (prepare_key M cfg word, some start, some visualLength)
    | none => ([], none, none)
  else
    let s := stdIndices M line
    let key :=
      if s.2.2 && s.2.1 == 0 then (sliceFrom? line s.1).getD []
      else if s.2.2 then (sliceBytes? line s.1 s.2.1).getD []
      else []
    (prepare_key M cfg key, none, none)

/-- `SortConfig::process_lines_standard` (lines 139-224). -/
def process_lines_standard (M : CharModel) (cfg : SortConfig)
    (lines : List (List Char)) : List ProcessedLine :=
  lines.enum.filterMap (fun il =>
    if cfg.exclude_no_word && (extractStandard M cfg il.2).1.isEmpty then none
    else some ⟨il.2, (extractStandard M cfg il.2).1, il.1,
      (extractStandard M cfg il.2).2.1, (extractStandard M cfg il.2).2.2⟩)

/-- `SortConfig::process_lines_entire_line` (lines 114-137). -/
def process_lines_entire_line (M : CharModel) (cfg : SortConfig)
    (lines : List (List Char)) : List ProcessedLine :=
  lines.enum.filterMap (fun il =>
    if cfg.exclude_no_word && il.2.isEmpty then none
    else some ⟨il.2, prepare_key M cfg il.2, il.1, none, none⟩)

/-- Rust `.max().unwrap_or(0)` over a list of naturals. -/
def maxOr0 (l : List Nat) : Nat := l.foldr max 0

/-- `SortConfig::compute_padding_info` (lines 241-267). -/
def compute_padding_info (cfg : SortConfig) (processed : List ProcessedLine) :
    PaddingInfo :=
  if cfg.dictionary_order && !cfg.use_entire_line && !cfg.word_only then
    { max_value := maxOr0 (processed.filterMap (fun p =>
        p.visual_start.bind (fun s => p.word_length.map (fun l => s + l)))),
      use_end_pos := true }
  else
    { max_value := maxOr0 (processed.map (fun p => p.key.length)),
      use_end_pos := false }

/-- The `ProcessedLine` comparator built inside `sort_processed_lines`
(lines 274-284): keys first, ascending index on equal keys. -/
def lineCmp (cfg : SortConfig) (a b : ProcessedLine) : Ordering :=
  let key_cmp := get_comparer cfg a.key b.key
  if key_cmp = Ordering.eq then compare a.index b.index else key_cmp

/-- The comparator as a boolean "less or equal" relation. -/
def lineLe (cfg : SortConfig) (a b : ProcessedLine) : Bool :=
  lineCmp cfg a b ≠ Ordering.gt

/-- `SortConfig::sort_processed_lines` (lines 269-291).  Both `par_sort_by`
(stable = true) and `par_sort_unstable_by` (stable = false) sort by the same
comparator; each is specified to produce a permutation of its input ordered by
that comparator, and such a permutation is unique when the indices are
pairwise distinct (proved below), so both branches are embedded as a merge
sort by the comparator. -/
def sort_processed_lines (cfg : SortConfig) (processed : List ProcessedLine) :
    List ProcessedLine :=
  processed.mergeSort (lineLe cfg)

/-- The branch selection at the head of `process_lines` (lines 36-40). -/
def extracted (M : CharModel) (cfg : SortConfig) (lines : List (List Char)) :
    List ProcessedLine :=
  if cfg.use_entire_line then process_lines_entire_line M cfg lines
  else process_lines_standard M cfg lines

/-- `SortConfig::process_lines` (lines 34-53): extract, compute padding from
the unsorted set when `right_align` is set, then sort. -/
def process_lines (M : CharModel) (cfg : SortConfig) (lines : List (List Char)) :
    List ProcessedLine × Option PaddingInfo :=
  let processed := extracted M cfg lines
  let padding_info :=
    if cfg.right_align then some (compute_padding_info cfg processed) else none
  (sort_processed_lines cfg processed, padding_info)

/-- Modelled from the spec: Rust `char::is_alphabetic` (Unicode letter
classification) is library code external to this repository.  This instance
covers ASCII letters, the Latin-1 letters (excluding × and ÷), and
dotted/dotless I; every other character is classified non-alphabetic. -/
def uIsAlphabetic (c : Char) : Bool :=
  decide ((0x41 ≤ c.toNat ∧ c.toNat ≤ 0x5A) ∨ (0x61 ≤ c.toNat ∧ c.toNat ≤ 0x7A) ∨
    (0xC0 ≤ c.toNat ∧ c.toNat ≤ 0xFF ∧ c.toNat ≠ 0xD7 ∧ c.toNat ≠ 0xF7) ∨
    c.toNat = 0x130 ∨ c.toNat = 0x131)

/-- Modelled from the spec: Rust `char::is_whitespace` (Unicode White_Space)
restricted to the ASCII whitespace characters plus NEL and NBSP. -/
def uIsWhitespace (c : Char) : Bool :=
  decide (c.toNat = 0x20 ∨ c.toNat = 0x09 ∨ c.toNat = 0x0A ∨ c.toNat = 0x0B ∨
    c.toNat = 0x0C ∨ c.toNat = 0x0D ∨ c.toNat = 0x85 ∨ c.toNat = 0xA0)

/-- Modelled from the spec: the NFC primary composites for a Latin vowel
followed by U+0301 COMBINING ACUTE ACCENT. -/
def composeAcute (c : Char) : Option Char :=
  if c = 'A' then some (Char.ofNat 0xC1)
  else if c = 'E' then some (Char.ofNat 0xC9)
  else if c = 'I' then some (Char.ofNat 0xCD)
  else if c = 'O' then some (Char.ofNat 0xD3)
  else if c = 'U' then some (Char.ofNat 0xDA)
  else if c = 'a' then some (Char.ofNat 0xE1)
  else if c = 'e' then some (Char.ofNat 0xE9)
  else if c = 'i' then some (Char.ofNat 0xED)
  else if c = 'o' then some (Char.ofNat 0xF3)
  else if c = 'u' then some (Char.ofNat 0xFA)
  else none

/-- Modelled from the spec: Unicode canonical composition (NFC) restricted to
composing a base letter with a following U+0301 combining acute accent; the
`unicode_normalization` crate is external to this repository. -/
def uNfc : List Char → List Char
  | [] => []
  | [c] => [c]
  | c :: d :: rest =>
    if d.toNat = 0x301 then
      match composeAcute c with
      | some e => e :: uNfc rest
      | none => c :: uNfc (d :: rest)
    else c :: uNfc (d :: rest)

/-- Modelled from the spec: Rust `char::to_lowercase` for the characters
exercised here — ASCII uppercase, Latin-1 uppercase (É → é, …), and İ
(U+0130), whose lowercase is the two-codepoint sequence i, U+0307.  All other
characters map to themselves. -/
def uLowerChar (c : Char) : List Char :=
  if 0x41 ≤ c.toNat ∧ c.toNat ≤ 0x5A then [Char.ofNat (c.toNat + 0x20)]
  else if c.toNat = 0x130 then ['i', Char.ofNat 0x307]
  else if 0xC0 ≤ c.toNat ∧ c.toNat ≤ 0xDE ∧ c.toNat ≠ 0xD7 then
    [Char.ofNat (c.toNat + 0x20)]
  else [c]

/-- Modelled from the spec: Rust `str::to_lowercase`, mapping each character
through its lowercase expansion. -/
def uToLowercase (s : List Char) : List Char := (s.map uLowerChar).flatten

/-- The concrete character model used for evaluating the pipeline. -/
def unicodeModel : CharModel :=
  ⟨uIsAlphabetic, uIsWhitespace, uNfc, uToLowercase⟩

/-! ### Facts about the character-level comparison -/

theorem char_compare_self (c : Char) : compare c c = Ordering.eq :=
  compare_eq_iff_eq.2 rfl

theorem char_compare_swap (a b : Char) : compare b a = (compare a b).swap := by
  rcases lt_trichotomy a b with h | h | h
  · have h1 : compare a b = Ordering.lt := compare_lt_iff_lt.2 h
    have h2 : compare b a = Ordering.gt := compare_gt_iff_gt.2 h
    rw [h1, h2]; rfl
  · subst h; rw [char_compare_self]; rfl
  · have h1 : compare a b = Ordering.gt := compare_gt_iff_gt.2 h
    have h2 : compare b a = Ordering.lt := compare_lt_iff_lt.2 h
    rw [h1, h2]; rfl

theorem ordering_swap_eq_eq (o : Ordering) : o.swap = Ordering.eq ↔ o = Ordering.eq := by
  cases o <;> simp [Ordering.swap]

theorem ordering_swap_eq_lt (o : Ordering) : o.swap = Ordering.lt ↔ o = Ordering.gt := by
  cases o <;> simp [Ordering.swap]

theorem ordering_swap_eq_gt (o : Ordering) : o.swap = Ordering.gt ↔ o = Ordering.lt := by
  cases o <;> simp [Ordering.swap]

theorem comparerLoop_self (l : List Char) : comparerLoop l l = Ordering.eq := by
  induction l with
  | nil => rfl
  | cons c cs ih => simp [comparerLoop, char_compare_self, ih]

theorem comparerLoop_shared (t : List Char) :
    ∀ a b, comparerLoop (t ++ a) (t ++ b) = comparerLoop a b := by
  induction t with
  | nil => intro a b; rfl
  | cons c cs ih => intro a b; simp [comparerLoop, char_compare_self, ih]

theorem comparerLoop_eq_iff (a : List Char) : ∀ b, comparerLoop a b = Ordering.eq ↔ a = b := by
  induction a with
  | nil => intro b; cases b <;> simp [comparerLoop]
  | cons c cs ih =>
    intro b
    cases b with
    | nil => simp [comparerLoop]
    | cons d ds =>
      by_cases h : compare c d = Ordering.eq
      · have hcd : c = d := compare_eq_iff_eq.1 h
        subst hcd
        simp [comparerLoop, char_compare_self, ih]
      · constructor
        · intro he
          rw [comparerLoop, if_pos h] at he
          exact absurd he h
        · intro he
          injection he with h1 h2
          exact absurd (compare_eq_iff_eq.2 h1) h

theorem comparerLoop_swap (a : List Char) :
    ∀ b, comparerLoop b a = (comparerLoop a b).swap := by
  induction a with
  | nil => intro b; cases b <;> rfl
  | cons c cs ih =>
    intro b
    cases b with
    | nil => rfl
    | cons d ds =>
      by_cases h : compare c d = Ordering.eq
      · have hdc : compare d c = Ordering.eq := by
          rw [char_compare_swap, h]; rfl
        rw [comparerLoop, comparerLoop, if_neg (by simp [hdc]), if_neg (by simp [h])]
        exact ih ds
      · have hdc : compare d c ≠ Ordering.eq := by
          rw [char_compare_swap]
          intro hh
          exact h ((ordering_swap_eq_eq _).1 hh)
        rw [comparerLoop, comparerLoop, if_pos h, if_pos hdc]
        exact char_compare_swap c d

theorem comparerLoop_lt_trans :
    ∀ a b c, comparerLoop a b = Ordering.lt → comparerLoop b c = Ordering.lt →
      comparerLoop a c = Ordering.lt := by
  intro a
  induction a with
  | nil =>
    intro b c h1 h2
    cases c with
    | nil =>
      cases b with
      | nil => exact h1
      | cons y ys => exact absurd h2 (by simp [comparerLoop])
    | cons z zs => rfl
  | cons x xs ih =>
    intro b c h1 h2
    cases b with
    | nil => exact absurd h1 (by simp [comparerLoop])
    | cons y ys =>
      cases c with
      | nil => exact absurd h2 (by simp [comparerLoop])
      | cons z zs =>
        by_cases hxy : compare x y = Ordering.eq
        · have hx : x = y := compare_eq_iff_eq.1 hxy
          subst hx
          rw [comparerLoop, if_neg (by simp [hxy])] at h1
          by_cases hxz : compare x z = Ordering.eq
          · have hz : x = z := compare_eq_iff_eq.1 hxz
            subst hz
            rw [comparerLoop, if_neg (by simp [hxz])] at h2 ⊢
            exact ih ys zs h1 h2
          · rw [comparerLoop, if_pos hxz] at h2 ⊢
            exact h2
        · rw [comparerLoop, if_pos hxy] at h1
          by_cases hyz : compare y z = Ordering.eq
          · have hy : y = z := compare_eq_iff_eq.1 hyz
            subst hy
            rw [comparerLoop, if_pos hxy]
            exact h1
          · rw [comparerLoop, if_pos hyz] at h2
            have hlt : x < z := lt_trans (compare_lt_iff_lt.1 h1) (compare_lt_iff_lt.1 h2)
            rw [comparerLoop, if_pos (by rw [compare_lt_iff_lt.2 hlt]; simp)]
            exact compare_lt_iff_lt.2 hlt

theorem get_comparer_def_false (cfg : SortConfig) (h : cfg.reverse = false)
    (a b : List Char) : get_comparer cfg a b = comparerLoop a.reverse b.reverse := by
  unfold get_comparer
  rw [h]
  rfl

theorem get_comparer_def_true (cfg : SortConfig) (h : cfg.reverse = true)
    (a b : List Char) :
    get_comparer cfg a b = (comparerLoop a.reverse b.reverse).swap := by
  unfold get_comparer
  rw [h]
  rfl

theorem get_comparer_eq_iff (cfg : SortConfig) (a b : List Char) :
    get_comparer cfg a b = Ordering.eq ↔ a = b := by
  cases hr : cfg.reverse
  · rw [get_comparer_def_false cfg hr, comparerLoop_eq_iff, List.reverse_inj]
  · rw [get_comparer_def_true cfg hr, ordering_swap_eq_eq, comparerLoop_eq_iff,
      List.reverse_inj]

theorem get_comparer_swap (cfg : SortConfig) (a b : List Char) :
    get_comparer cfg b a = (get_comparer cfg a b).swap := by
  cases hr : cfg.reverse
  · rw [get_comparer_def_false cfg hr, get_comparer_def_false cfg hr]
    exact comparerLoop_swap _ _
  · rw [get_comparer_def_true cfg hr, get_comparer_def_true cfg hr,
      comparerLoop_swap, Ordering.swap_swap]

theorem get_comparer_lt_trans (cfg : SortConfig) (a b c : List Char) :
    get_comparer cfg a b = Ordering.lt → get_comparer cfg b c = Ordering.lt →
      get_comparer cfg a c = Ordering.lt := by
  cases hr : cfg.reverse
  · rw [get_comparer_def_false cfg hr, get_comparer_def_false cfg hr,
      get_comparer_def_false cfg hr]
    exact comparerLoop_lt_trans _ _ _
  · rw [get_comparer_def_true cfg hr, get_comparer_def_true cfg hr,
      get_comparer_def_true cfg hr]
    intro h1 h2
    rw [ordering_swap_eq_lt] at h1 h2 ⊢
    have h1' : comparerLoop b.reverse a.reverse = Ordering.lt := by
      rw [comparerLoop_swap, h1]; rfl
    have h2' : comparerLoop c.reverse b.reverse = Ordering.lt := by
      rw [comparerLoop_swap, h2]; rfl
    have := comparerLoop_lt_trans _ _ _ h2' h1'
    rw [comparerLoop_swap] at this
    exact (ordering_swap_eq_lt _).1 this

/-- C1: the comparator returned by `get_comparer` walks both keys from their
final character backward; at the first mismatched pair it returns `Greater` if
`a`'s character has the larger scalar value, else `Less`; a key exhausted first
makes the other (longer) key `Greater`; simultaneous exhaustion gives `Equal`;
and `compare("cat", "at")` with `reverse = false` is `Greater`. -/
theorem c1_comparer_backward (cfg : SortConfig) (hrev : cfg.reverse = false)
    (s x y : List Char) (ca cb : Char) :
    (cb < ca → get_comparer cfg (x ++ ca :: s) (y ++ cb :: s) = Ordering.gt) ∧
    (ca < cb → get_comparer cfg (x ++ ca :: s) (y ++ cb :: s) = Ordering.lt) ∧
    (x ≠ [] → get_comparer cfg (x ++ s) s = Ordering.gt ∧
      get_comparer cfg s (x ++ s) = Ordering.lt) ∧
    get_comparer cfg s s = Ordering.eq ∧
    get_comparer cfg ("cat".toList) ("at".toList) = Ordering.gt := by
  have hrw : ∀ u v : List Char, get_comparer cfg u v = comparerLoop u.reverse v.reverse := by
    intro u v
    unfold get_comparer
    simp [hrev]
  have hshape : ∀ (z : List Char) (cz : Char),
      (z ++ cz :: s).reverse = s.reverse ++ (cz :: z.reverse) := by
    intro z cz
    rw [List.reverse_append, List.reverse_cons, List.append_assoc]
    rfl
  refine ⟨?_, ?_, ?_, ?_, ?_⟩
  · intro h
    rw [hrw, hshape, hshape, comparerLoop_shared, comparerLoop,
      if_pos (by rw [compare_gt_iff_gt.2 h]; simp)]
    exact compare_gt_iff_gt.2 h
  · intro h
    rw [hrw, hshape, hshape, comparerLoop_shared, comparerLoop,
      if_pos (by rw [compare_lt_iff_lt.2 h]; simp)]
    exact compare_lt_iff_lt.2 h
  · intro hx
    have hxr : x.reverse ≠ [] := by
      intro hh
      exact hx (by simpa using congrArg List.reverse hh)
    constructor
    · rw [hrw, List.reverse_append]
      have : s.reverse = s.reverse ++ [] := by simp
      rw [show comparerLoop (s.reverse ++ x.reverse) s.reverse
          = comparerLoop (s.reverse ++ x.reverse) (s.reverse ++ []) by simp,
        comparerLoop_shared]
      cases hx' : x.reverse with
      | nil => exact absurd hx' hxr
      | cons c cs => rfl
    · rw [hrw, List.reverse_append]
      rw [show comparerLoop s.reverse (s.reverse ++ x.reverse)
          = comparerLoop (s.reverse ++ []) (s.reverse ++ x.reverse) by simp,
        comparerLoop_shared]
      cases hx' : x.reverse with
      | nil => exact absurd hx' hxr
      | cons c cs => rfl
  · rw [hrw]
    exact comparerLoop_self _
  · rw [hrw]
    decide

/-- Closed instantiation of `c1_comparer_backward`, discharging its
hypotheses at concrete inputs. -/
theorem c1_comparer_backward_witness :
    get_comparer SortConfig.default (['x'] ++ 'b' :: ['z']) ([] ++ 'a' :: ['z']) = Ordering.gt ∧
    get_comparer SortConfig.default (['c'] ++ ['t']) ['t'] = Ordering.gt ∧
    get_comparer SortConfig.default ['t'] (['c'] ++ ['t']) = Ordering.lt ∧
    get_comparer SortConfig.default ("cat".toList) ("at".toList) = Ordering.gt := by
  have h1 := c1_comparer_backward SortConfig.default rfl ['z'] ['x'] [] 'b' 'a'
  have h2 := c1_comparer_backward SortConfig.default rfl ['t'] ['c'] [] 'b' 'a'
  exact ⟨h1.1 (by decide), (h2.2.2.1 (by decide)).1, (h2.2.2.1 (by decide)).2,
    h2.2.2.2.2⟩

/-- C8: flipping `reverse` swaps `Less`/`Greater` and never inverts `Equal`,
and every key compares `Equal` to itself under any configuration. -/
theorem c8_reverse_and_refl (cfg : SortConfig) (a b : List Char) :
    get_comparer { cfg with reverse := true } a b
      = (get_comparer { cfg with reverse := false } a b).swap ∧
    (get_comparer { cfg with reverse := true } a b = Ordering.eq ↔
      get_comparer { cfg with reverse := false } a b = Ordering.eq) ∧
    get_comparer cfg a a = Ordering.eq := by
  refine ⟨rfl, ?_, ?_⟩
  · rw [show get_comparer { cfg with reverse := true } a b
        = (get_comparer { cfg with reverse := false } a b).swap from rfl]
    exact ordering_swap_eq_eq _
  · cases hr : cfg.reverse
    · rw [get_comparer_def_false cfg hr]
      exact comparerLoop_self _
    · rw [get_comparer_def_true cfg hr, comparerLoop_self]
      rfl

/-! ### Facts about the ProcessedLine comparator and the sort engine -/

theorem nat_compare_swap (m n : Nat) : compare n m = (compare m n).swap := by
  rcases Nat.lt_trichotomy m n with h | h | h
  · rw [Nat.compare_eq_lt.2 h, Nat.compare_eq_gt.2 h]; rfl
  · subst h; rw [Nat.compare_eq_eq.2 rfl]; rfl
  · rw [Nat.compare_eq_gt.2 h, Nat.compare_eq_lt.2 h]; rfl

theorem lineCmp_eq_iff (cfg : SortConfig) (a b : ProcessedLine) :
    lineCmp cfg a b = Ordering.eq ↔ a.key = b.key ∧ a.index = b.index := by
  unfold lineCmp
  by_cases h : get_comparer cfg a.key b.key = Ordering.eq
  · rw [if_pos h, Nat.compare_eq_eq]
    exact ⟨fun hi => ⟨(get_comparer_eq_iff cfg _ _).1 h, hi⟩, fun hh => hh.2⟩
  · rw [if_neg h]
    constructor
    · intro hh; exact absurd hh h
    · intro hh
      exact absurd ((get_comparer_eq_iff cfg _ _).2 hh.1) h

theorem lineCmp_swap (cfg : SortConfig) (a b : ProcessedLine) :
    lineCmp cfg b a = (lineCmp cfg a b).swap := by
  unfold lineCmp
  by_cases h : get_comparer cfg a.key b.key = Ordering.eq
  · have h' : get_comparer cfg b.key a.key = Ordering.eq := by
      rw [get_comparer_swap, h]; rfl
    rw [if_pos h', if_pos h]
    exact nat_compare_swap _ _
  · have h' : ¬ get_comparer cfg b.key a.key = Ordering.eq := by
      rw [get_comparer_swap]
      intro hh
      exact h ((ordering_swap_eq_eq _).1 hh)
    rw [if_neg h', if_neg h]
    exact get_comparer_swap cfg a.key b.key

theorem lineCmp_key_congr (cfg : SortConfig) (a b c : ProcessedLine)
    (hk : a.key = b.key) (hi : a.index = b.index) :
    lineCmp cfg a c = lineCmp cfg b c := by
  unfold lineCmp
  rw [hk, hi]

theorem lineCmp_key_congr_right (cfg : SortConfig) (a b c : ProcessedLine)
    (hk : b.key = c.key) (hi : b.index = c.index) :
    lineCmp cfg a b = lineCmp cfg a c := by
  unfold lineCmp
  rw [hk, hi]

theorem lineCmp_lt_trans (cfg : SortConfig) (a b c : ProcessedLine) :
    lineCmp cfg a b = Ordering.lt → lineCmp cfg b c = Ordering.lt →
      lineCmp cfg a c = Ordering.lt := by
  intro h1 h2
  by_cases hab : get_comparer cfg a.key b.key = Ordering.eq <;>
    by_cases hbc : get_comparer cfg b.key c.key = Ordering.eq
  · have hk1 : a.key = b.key := (get_comparer_eq_iff cfg _ _).1 hab
    have hk2 : b.key = c.key := (get_comparer_eq_iff cfg _ _).1 hbc
    have hac : get_comparer cfg a.key c.key = Ordering.eq := by
      rw [hk1, hk2]; exact (get_comparer_eq_iff cfg _ _).2 rfl
    rw [lineCmp, if_pos hab] at h1
    rw [lineCmp, if_pos hbc] at h2
    rw [lineCmp, if_pos hac, Nat.compare_eq_lt]
    exact Nat.lt_trans (Nat.compare_eq_lt.1 h1) (Nat.compare_eq_lt.1 h2)
  · have hk1 : a.key = b.key := (get_comparer_eq_iff cfg _ _).1 hab
    rw [lineCmp, if_neg hbc] at h2
    have hac : get_comparer cfg a.key c.key = Ordering.lt := by rw [hk1]; exact h2
    rw [lineCmp, if_neg (by rw [hac]; intro hh; cases hh)]
    exact hac
  · have hk2 : b.key = c.key := (get_comparer_eq_iff cfg _ _).1 hbc
    rw [lineCmp, if_neg hab] at h1
    have hac : get_comparer cfg a.key c.key = Ordering.lt := by rw [← hk2]; exact h1
    rw [lineCmp, if_neg (by rw [hac]; intro hh; cases hh)]
    exact hac
  · rw [lineCmp, if_neg hab] at h1
    rw [lineCmp, if_neg hbc] at h2
    have hac := get_comparer_lt_trans cfg a.key b.key c.key h1 h2
    rw [lineCmp, if_neg (by rw [hac]; intro hh; cases hh)]
    exact hac

theorem lineLe_trans (cfg : SortConfig) (a b c : ProcessedLine) :
    lineLe cfg a b = true → lineLe cfg b c = true → lineLe cfg a c = true := by
  unfold lineLe
  simp only [ne_eq, decide_eq_true_eq]
  intro h1 h2
  cases hab : lineCmp cfg a b with
  | gt => exact absurd hab h1
  | eq =>
    obtain ⟨hk, hi⟩ := (lineCmp_eq_iff cfg a b).1 hab
    rw [lineCmp_key_congr cfg a b c hk hi]
    exact h2
  | lt =>
    cases hbc : lineCmp cfg b c with
    | gt => exact absurd hbc h2
    | eq =>
      obtain ⟨hk, hi⟩ := (lineCmp_eq_iff cfg b c).1 hbc
      rw [← lineCmp_key_congr_right cfg a b c hk hi, hab]
      intro hh; cases hh
    | lt =>
      rw [lineCmp_lt_trans cfg a b c hab hbc]
      intro hh; cases hh

theorem lineLe_total (cfg : SortConfig) (a b : ProcessedLine) :
    (lineLe cfg a b || lineLe cfg b a) = true := by
  unfold lineLe
  cases hab : lineCmp cfg a b with
  | lt => simp [hab]
  | eq => simp [hab]
  | gt =>
    have : lineCmp cfg b a = Ordering.lt := by
      rw [lineCmp_swap, hab]; rfl
    simp [this]

theorem sort_processed_lines_sorted (cfg : SortConfig) (l : List ProcessedLine) :
    (sort_processed_lines cfg l).Pairwise
      (fun a b => lineCmp cfg a b ≠ Ordering.gt) :=
  (List.sorted_mergeSort (lineLe_trans cfg) (lineLe_total cfg) l).imp
    (fun h => by simpa [lineLe] using h)

/-- Any permutation of `l` that is ordered by the comparator coincides with
the output of `sort_processed_lines`, provided the original indices in `l`
are pairwise distinct. -/
theorem sort_processed_lines_unique (cfg : SortConfig) (l : List ProcessedLine)
    (hnodup : l.Pairwise (fun a b => a.index ≠ b.index))
    (l2 : List ProcessedLine) (hl2perm : l.Perm l2)
    (hl2sorted : l2.Pairwise (fun a b => lineCmp cfg a b ≠ Ordering.gt)) :
    l2 = sort_processed_lines cfg l := by
  have hperm : (sort_processed_lines cfg l).Perm l :=
    List.mergeSort_perm l (lineLe cfg)
  have hsym : ∀ {x y : ProcessedLine}, x.index ≠ y.index → y.index ≠ x.index :=
    fun h => h.symm
  haveI : IsAntisymm ProcessedLine (fun a b => lineCmp cfg a b = Ordering.lt) :=
    ⟨fun a b h1 h2 => by rw [lineCmp_swap, h1] at h2; cases h2⟩
  have hnd2 : l2.Pairwise (fun a b => a.index ≠ b.index) :=
    (List.Perm.pairwise_iff hsym hl2perm).1 hnodup
  have hndout : (sort_processed_lines cfg l).Pairwise
      (fun a b => a.index ≠ b.index) :=
    (List.Perm.pairwise_iff hsym hperm.symm).1 hnodup
  have hstrict : ∀ (a b : ProcessedLine), lineCmp cfg a b ≠ Ordering.gt →
      a.index ≠ b.index → lineCmp cfg a b = Ordering.lt := by
    intro a b hle hne
    cases hc : lineCmp cfg a b with
    | lt => rfl
    | eq => exact absurd ((lineCmp_eq_iff cfg a b).1 hc).2 hne
    | gt => exact absurd hc hle
  have hs2 : List.Sorted (fun a b => lineCmp cfg a b = Ordering.lt) l2 :=
    (hl2sorted.and hnd2).imp (fun h => hstrict _ _ h.1 h.2)
  have hsout : List.Sorted (fun a b => lineCmp cfg a b = Ordering.lt)
      (sort_processed_lines cfg l) :=
    ((sort_processed_lines_sorted cfg l).and hndout).imp
      (fun h => hstrict _ _ h.1 h.2)
  exact List.eq_of_perm_of_sorted (hl2perm.symm.trans hperm.symm) hs2 hsout

/-- Configuration of the C3 stable-mode example: sort by first word,
`stable = true`. -/
def stableFirstWordConfig : SortConfig := { SortConfig.default with stable := true }

/-- C3: `sort_processed_lines` orders by the key comparator with ties broken
by ascending original index regardless of `reverse`; any permutation sorted by
the same relation is equal to its output (so a stable and an unstable sorting
algorithm produce identical output when the indices are pairwise distinct);
and on `["b 1","a 1","b 2"]` sorted by first word with `stable = true` the two
key-"b" lines keep line 0 before line 2. -/
theorem c3_sort_engine (cfg : SortConfig) (l : List ProcessedLine) :
    (sort_processed_lines cfg l).Perm l ∧
    (sort_processed_lines cfg l).Pairwise
      (fun a b => lineCmp cfg a b ≠ Ordering.gt) ∧
    (sort_processed_lines cfg l).Pairwise
      (fun a b => get_comparer cfg a.key b.key = Ordering.eq → a.index ≤ b.index) ∧
    (l.Pairwise (fun a b => a.index ≠ b.index) →
      ∀ l2, l.Perm l2 →
        l2.Pairwise (fun a b => lineCmp cfg a b ≠ Ordering.gt) →
          l2 = sort_processed_lines cfg l) ∧
    (process_lines unicodeModel stableFirstWordConfig
      ["b 1".toList, "a 1".toList, "b 2".toList]).1.map (fun p => p.index)
      = [1, 0, 2] := by
  refine ⟨List.mergeSort_perm l (lineLe cfg), sort_processed_lines_sorted cfg l,
    ?_, fun hnd l2 hp hs => sort_processed_lines_unique cfg l hnd l2 hp hs, ?_⟩
  · refine (sort_processed_lines_sorted cfg l).imp (fun h hk => ?_)
    rename_i a b
    unfold lineCmp at h
    rw [if_pos hk] at h
    have hnotlt : ¬ b.index < a.index := fun hh => h (Nat.compare_eq_gt.2 hh)
    omega
  · have hhead : (process_lines unicodeModel stableFirstWordConfig
        ["b 1".toList, "a 1".toList, "b 2".toList]).1
        = sort_processed_lines stableFirstWordConfig
            (process_lines_standard unicodeModel stableFirstWordConfig
              ["b 1".toList, "a 1".toList, "b 2".toList]) := rfl
    have hsortval : [(⟨"a 1".toList, ['a'], 1, none, none⟩ : ProcessedLine),
        ⟨"b 1".toList, ['b'], 0, none, none⟩, ⟨"b 2".toList, ['b'], 2, none, none⟩]
        = sort_processed_lines stableFirstWordConfig
            (process_lines_standard unicodeModel stableFirstWordConfig
              ["b 1".toList, "a 1".toList, "b 2".toList]) := by
      apply sort_processed_lines_unique
      · decide
      · show List.Perm (List.cons _ (List.cons _ _)) _
        exact List.Perm.swap _ _ _
      · decide
    rw [hhead, ← hsortval]
    rfl

/-- Closed instantiation of `c3_sort_engine`, discharging its hypotheses at a
concrete input. -/
theorem c3_sort_engine_witness :
    ([(⟨['x'], ['a'], 1, none, none⟩ : ProcessedLine), ⟨['y'], ['b'], 0, none, none⟩]
      = sort_processed_lines SortConfig.default
          [⟨['y'], ['b'], 0, none, none⟩, ⟨['x'], ['a'], 1, none, none⟩]) ∧
    (process_lines unicodeModel stableFirstWordConfig
      ["b 1".toList, "a 1".toList, "b 2".toList]).1.map (fun p => p.index)
      = [1, 0, 2] := by
  have h := c3_sort_engine SortConfig.default
    [⟨['y'], ['b'], 0, none, none⟩, ⟨['x'], ['a'], 1, none, none⟩]
  refine ⟨h.2.2.2.1 (by decide) _ ?_ (by decide), h.2.2.2.2⟩
  show List.Perm (List.cons _ (List.cons _ List.nil)) _
  exact List.Perm.swap _ _ _

/-! ### Facts about the padding computation -/

theorem maxOr0_le (l : List Nat) : ∀ x ∈ l, x ≤ maxOr0 l := by
  induction l with
  | nil => intro x hx; cases hx
  | cons a as ih =>
    intro x hx
    rcases List.mem_cons.1 hx with h | h
    · subst h; exact Nat.le_max_left _ _
    · exact le_trans (ih x h) (Nat.le_max_right _ _)

theorem maxOr0_attained (l : List Nat) : maxOr0 l = 0 ∨ maxOr0 l ∈ l := by
  induction l with
  | nil => exact Or.inl rfl
  | cons a as ih =>
    show (max a (maxOr0 as) = 0) ∨ max a (maxOr0 as) ∈ a :: as
    by_cases h : maxOr0 as ≤ a
    · rw [Nat.max_eq_left h]
      exact Or.inr (List.mem_cons_self a as)
    · rw [Nat.max_eq_right (Nat.le_of_not_le h)]
      rcases ih with h0 | hmem
      · exact Or.inl h0
      · exact Or.inr (List.mem_cons_of_mem a hmem)

/-- Configuration for the C7 witness: dictionary order with right alignment. -/
def dictAlignConfig : SortConfig :=
  { SortConfig.default with dictionary_order := true, right_align := true }

/-- C7: with `dictionary_order && !use_entire_line && !word_only` the padding
calculator returns `use_end_pos = true` and the maximum of
`visual_start + word_length` over exactly the entries where both are `Some`
(others excluded, not counted as zero); otherwise `use_end_pos = false` and
the maximum key character count, `0` for an empty sequence; and the pipeline
returns padding information exactly when `right_align` is set, computed from
the unsorted extracted lines. -/
theorem c7_padding_calculator (cfg : SortConfig) (processed : List ProcessedLine) :
    ((cfg.dictionary_order && !cfg.use_entire_line && !cfg.word_only) = true →
      (compute_padding_info cfg processed).use_end_pos = true ∧
      (∀ p ∈ processed, ∀ s l, p.visual_start = some s → p.word_length = some l →
        s + l ≤ (compute_padding_info cfg processed).max_value) ∧
      ((compute_padding_info cfg processed).max_value = 0 ∨
        ∃ p ∈ processed, ∃ s l, p.visual_start = some s ∧ p.word_length = some l ∧
          s + l = (compute_padding_info cfg processed).max_value)) ∧
    ((cfg.dictionary_order && !cfg.use_entire_line && !cfg.word_only) = false →
      (compute_padding_info cfg processed).use_end_pos = false ∧
      (∀ p ∈ processed, p.key.length ≤ (compute_padding_info cfg processed).max_value) ∧
      ((compute_padding_info cfg processed).max_value = 0 ∨
        ∃ p ∈ processed, p.key.length = (compute_padding_info cfg processed).max_value)) ∧
    (∀ (M : CharModel) (lines : List (List Char)),
      (process_lines M cfg lines).2
        = if cfg.right_align then
            some (compute_padding_info cfg (extracted M cfg lines))
          else none) := by
  refine ⟨?_, ?_, fun M lines => rfl⟩
  · intro h
    have hpi : compute_padding_info cfg processed
        = { max_value := maxOr0 (processed.filterMap (fun p =>
              p.visual_start.bind (fun s => p.word_length.map (fun l => s + l)))),
            use_end_pos := true } := by
      unfold compute_padding_info
      rw [if_pos h]
    rw [hpi]
    refine ⟨rfl, ?_, ?_⟩
    · intro p hp s l hs hl
      have hmem : s + l ∈ processed.filterMap (fun p =>
          p.visual_start.bind (fun s => p.word_length.map (fun l => s + l))) :=
        List.mem_filterMap.2 ⟨p, hp, by rw [hs, hl]; rfl⟩
      exact maxOr0_le _ _ hmem
    · rcases maxOr0_attained (processed.filterMap (fun p =>
          p.visual_start.bind (fun s => p.word_length.map (fun l => s + l)))) with
        h0 | hmem
      · exact Or.inl h0
      · obtain ⟨p, hp, hfp⟩ := List.mem_filterMap.1 hmem
        refine Or.inr ⟨p, hp, ?_⟩
        cases hvs : p.visual_start with
        | none => rw [hvs] at hfp; cases hfp
        | some s =>
          cases hwl : p.word_length with
          | none => rw [hvs, hwl] at hfp; cases hfp
          | some l =>
            rw [hvs, hwl] at hfp
            refine ⟨s, l, rfl, rfl, ?_⟩
            simpa using hfp
  · intro h
    have hpi : compute_padding_info cfg processed
        = { max_value := maxOr0 (processed.map (fun p => p.key.length)),
            use_end_pos := false } := by
      unfold compute_padding_info
      rw [if_neg (by rw [h]; intro hh; cases hh)]
    rw [hpi]
    refine ⟨rfl, ?_, ?_⟩
    · intro p hp
      exact maxOr0_le _ _ (List.mem_map.2 ⟨p, hp, rfl⟩)
    · rcases maxOr0_attained (processed.map (fun p => p.key.length)) with h0 | hmem
      · exact Or.inl h0
      · obtain ⟨p, hp, hfp⟩ := List.mem_map.1 hmem
        exact Or.inr ⟨p, hp, hfp⟩

/-- Closed instantiation of `c7_padding_calculator`, discharging its
hypotheses at concrete inputs (the spec's end-to-end example). -/
theorem c7_padding_calculator_witness :
    (compute_padding_info dictAlignConfig
      [⟨"zebra apple".toList, "zebra".toList, 0, some 0, some 5⟩,
       ⟨"ant banana".toList, "ant".toList, 1, some 0, some 3⟩]).use_end_pos = true ∧
    0 + 5 ≤ (compute_padding_info dictAlignConfig
      [⟨"zebra apple".toList, "zebra".toList, 0, some 0, some 5⟩,
       ⟨"ant banana".toList, "ant".toList, 1, some 0, some 3⟩]).max_value ∧
    (compute_padding_info SortConfig.default
      [⟨"hello".toList, "hello".toList, 0, none, none⟩]).use_end_pos = false ∧
    ("hello".toList).length ≤ (compute_padding_info SortConfig.default
      [⟨"hello".toList, "hello".toList, 0, none, none⟩]).max_value := by
  have h1 := (c7_padding_calculator dictAlignConfig
    [⟨"zebra apple".toList, "zebra".toList, 0, some 0, some 5⟩,
     ⟨"ant banana".toList, "ant".toList, 1, some 0, some 3⟩]).1 (by decide)
  have h2 := (c7_padding_calculator SortConfig.default
    [⟨"hello".toList, "hello".toList, 0, none, none⟩]).2.1 (by decide)
  exact ⟨h1.1,
    h1.2.1 ⟨"zebra apple".toList, "zebra".toList, 0, some 0, some 5⟩
      (by decide) 0 5 rfl rfl,
    h2.1,
    h2.2.1 ⟨"hello".toList, "hello".toList, 0, none, none⟩ (by decide)⟩

/-! ### Shape of the extraction pipeline -/

theorem filterMap_ite_eq {α β : Type} (q : α → Bool) (f : α → β) (l : List α) :
    (l.filterMap (fun a => if q a then none else some (f a)))
      = (l.filter (fun a => !q a)).map f := by
  induction l with
  | nil => rfl
  | cons a as ih =>
    cases hq : q a <;>
      simp [List.filterMap_cons, List.filter_cons, hq, ih]

theorem process_lines_standard_shape (M : CharModel) (cfg : SortConfig)
    (lines : List (List Char)) :
    process_lines_standard M cfg lines
      = (lines.enum.filter (fun il =>
          !(cfg.exclude_no_word && (extractStandard M cfg il.2).1.isEmpty))).map
        (fun il => ⟨il.2, (extractStandard M cfg il.2).1, il.1,
          (extractStandard M cfg il.2).2.1, (extractStandard M cfg il.2).2.2⟩) :=
  filterMap_ite_eq _ _ _

theorem process_lines_entire_line_shape (M : CharModel) (cfg : SortConfig)
    (lines : List (List Char)) :
    process_lines_entire_line M cfg lines
      = (lines.enum.filter (fun il => !(cfg.exclude_no_word && il.2.isEmpty))).map
        (fun il => ⟨il.2, prepare_key M cfg il.2, il.1, none, none⟩) :=
  filterMap_ite_eq _ _ _

/-- Every surviving processed line keeps its input line verbatim at its
original index, and distinct entries come from distinct input positions. -/
theorem extracted_mem_spec (M : CharModel) (cfg : SortConfig)
    (lines : List (List Char)) :
    (∀ p ∈ extracted M cfg lines, lines[p.index]? = some p.original) ∧
    ((extracted M cfg lines).map (fun p => p.index)).Sublist
      (List.range lines.length) := by
  have key : ∀ (q : Nat × List Char → Bool)
      (f : Nat × List Char → ProcessedLine),
      (∀ il, (f il).index = il.1) → (∀ il, (f il).original = il.2) →
      (∀ p ∈ (lines.enum.filter q).map f, lines[p.index]? = some p.original) ∧
      (((lines.enum.filter q).map f).map (fun p => p.index)).Sublist
        (List.range lines.length) := by
    intro q f hidx horig
    constructor
    · intro p hp
      obtain ⟨il, hil, rfl⟩ := List.mem_map.1 hp
      have hmem : il ∈ lines.enum := List.mem_of_mem_filter hil
      rw [hidx, horig]
      exact List.mem_enum_iff_getElem?.1 hmem
    · have hmm : ((lines.enum.filter q).map f).map (fun p => p.index)
          = (lines.enum.filter q).map (fun il => il.1) := by
        rw [List.map_map]
        exact List.map_congr_left (fun il _ => hidx il)
      rw [hmm, ← List.enum_map_fst lines]
      exact List.Sublist.map _ (List.filter_sublist _)
  unfold extracted
  cases hue : cfg.use_entire_line
  · simp only [Bool.false_eq_true, if_false]
    rw [process_lines_standard_shape]
    exact key _ _ (fun il => rfl) (fun il => rfl)
  · simp only [if_true]
    rw [process_lines_entire_line_shape]
    exact key _ _ (fun il => rfl) (fun il => rfl)

theorem extracted_indices_nodup (M : CharModel) (cfg : SortConfig)
    (lines : List (List Char)) :
    ((extracted M cfg lines).map (fun p => p.index)).Nodup :=
  (extracted_mem_spec M cfg lines).2.nodup (List.nodup_range _)

theorem extracted_index_pairwise (M : CharModel) (cfg : SortConfig)
    (lines : List (List Char)) :
    (extracted M cfg lines).Pairwise (fun a b => a.index ≠ b.index) := by
  have h := extracted_indices_nodup M cfg lines
  simp only [List.Nodup, List.pairwise_map] at h
  exact h

theorem extracted_false (M : CharModel) (cfg : SortConfig)
    (lines : List (List Char)) (h : cfg.use_entire_line = false) :
    extracted M cfg lines = process_lines_standard M cfg lines := by
  unfold extracted
  rw [h]
  rfl

theorem extracted_true (M : CharModel) (cfg : SortConfig)
    (lines : List (List Char)) (h : cfg.use_entire_line = true) :
    extracted M cfg lines = process_lines_entire_line M cfg lines := by
  unfold extracted
  rw [h]
  rfl

theorem sort_processed_lines_singleton (cfg : SortConfig) (x : ProcessedLine) :
    sort_processed_lines cfg [x] = [x] :=
  (sort_processed_lines_unique cfg [x] (by simp) [x] (List.Perm.refl _)
    (by simp)).symm

/-- C10: with `exclude_no_word = false` no line is dropped — the pipeline
returns exactly one `ProcessedLine` per input line, each holding the input
line verbatim at its 0-based input index. -/
theorem c10_no_line_dropped (M : CharModel) (cfg : SortConfig)
    (lines : List (List Char)) (hx : cfg.exclude_no_word = false) :
    (process_lines M cfg lines).1.length = lines.length ∧
    ((process_lines M cfg lines).1.map (fun p => p.index)).Perm
      (List.range lines.length) ∧
    ∀ p ∈ (process_lines M cfg lines).1, lines[p.index]? = some p.original := by
  have hperm : (process_lines M cfg lines).1.Perm (extracted M cfg lines) :=
    List.mergeSort_perm _ _
  have key : ∀ (q : Nat × List Char → Bool)
      (f : Nat × List Char → ProcessedLine),
      (∀ il, q il = true) → (∀ il, (f il).index = il.1) →
      ((lines.enum.filter q).map f).map (fun p => p.index)
        = List.range lines.length := by
    intro q f hq hidx
    rw [List.filter_eq_self.2 (fun a _ => hq a), List.map_map,
      show ((fun p => p.index) ∘ f) = fun il => il.1 from funext (fun il => hidx il)]
    exact List.enum_map_fst lines
  have hidx : (extracted M cfg lines).map (fun p => p.index)
      = List.range lines.length := by
    cases hue : cfg.use_entire_line
    · rw [extracted_false M cfg lines hue, process_lines_standard_shape]
      exact key _ _ (fun il => by rw [hx]; rfl) (fun il => rfl)
    · rw [extracted_true M cfg lines hue, process_lines_entire_line_shape]
      exact key _ _ (fun il => by rw [hx]; rfl) (fun il => rfl)
  refine ⟨?_, ?_, ?_⟩
  · have h1 := congrArg List.length hidx
    rw [List.length_map, List.length_range] at h1
    rw [hperm.length_eq, h1]
  · have h2 := hperm.map (fun p => p.index)
    rw [hidx] at h2
    exact h2
  · intro p hp
    exact (extracted_mem_spec M cfg lines).1 p (hperm.mem_iff.1 hp)

/-- Closed instantiation of `c10_no_line_dropped` at a concrete input,
discharging its hypothesis. -/
theorem c10_no_line_dropped_witness :
    (process_lines unicodeModel SortConfig.default
      ["a".toList, ([] : List Char)]).1.length
      = (["a".toList, ([] : List Char)]).length ∧
    ((process_lines unicodeModel SortConfig.default
      ["a".toList, ([] : List Char)]).1.map (fun p => p.index)).Perm
      (List.range (["a".toList, ([] : List Char)]).length) ∧
    ∀ p ∈ (process_lines unicodeModel SortConfig.default
      ["a".toList, ([] : List Char)]).1,
      (["a".toList, ([] : List Char)])[p.index]? = some p.original :=
  c10_no_line_dropped unicodeModel SortConfig.default
    ["a".toList, ([] : List Char)] rfl

/-! ### The visual metadata invariant -/

theorem extractStandard_metadata (M : CharModel) (cfg : SortConfig)
    (line : List Char) :
    ((extractStandard M cfg line).2.1.isSome ↔
      (extractStandard M cfg line).2.2.isSome) ∧
    ((extractStandard M cfg line).2.1.isSome = true →
      cfg.dictionary_order = true) := by
  cases hd : cfg.dictionary_order
  · simp [extractStandard, hd]
  · rcases hdi : dictIndices M line with _ | ⟨s, e, v⟩ <;>
      simp [extractStandard, hd, hdi]

/-- C4 (amended): `visual_start` and `word_length` are both `None` or both
`Some`, and they are `Some` only under `dictionary_order && !use_entire_line`
— the code populates them whether or not `right_align` is set. -/
theorem c4_metadata_invariant (M : CharModel) (cfg : SortConfig)
    (lines : List (List Char)) (p : ProcessedLine)
    (hp : p ∈ (process_lines M cfg lines).1) :
    (p.visual_start.isSome ↔ p.word_length.isSome) ∧
    (p.visual_start.isSome = true →
      cfg.dictionary_order = true ∧ cfg.use_entire_line = false) := by
  have hp' : p ∈ extracted M cfg lines :=
    (List.Perm.mem_iff (List.mergeSort_perm _ _)).1 hp
  cases hue : cfg.use_entire_line
  · rw [extracted_false M cfg lines hue, process_lines_standard_shape] at hp'
    obtain ⟨il, hil, rfl⟩ := List.mem_map.1 hp'
    have hm := extractStandard_metadata M cfg il.2
    exact ⟨hm.1, fun h => ⟨hm.2 h, rfl⟩⟩
  · rw [extracted_true M cfg lines hue, process_lines_entire_line_shape] at hp'
    obtain ⟨il, hil, rfl⟩ := List.mem_map.1 hp'
    exact ⟨Iff.rfl, fun h => by simp at h⟩

/-- Configuration refuting C4 as stated: dictionary order without
right-alignment. -/
def dictOnlyConfig : SortConfig := { SortConfig.default with dictionary_order := true }

/-- C4 as stated is false: with `dictionary_order = true` and
`right_align = false` the pipeline still populates `visual_start`. -/
theorem c4_counterexample :
    ((process_lines unicodeModel dictOnlyConfig [['a']]).1.map
      (fun p => p.visual_start) = [some 0]) ∧
    dictOnlyConfig.right_align = false := by
  constructor
  · have h1 : (process_lines unicodeModel dictOnlyConfig [['a']]).1
        = sort_processed_lines dictOnlyConfig
            (extracted unicodeModel dictOnlyConfig [['a']]) := rfl
    have h2 : extracted unicodeModel dictOnlyConfig [['a']]
        = [⟨['a'], ['a'], 0, some 0, some 1⟩] := by decide
    rw [h1, h2, sort_processed_lines_singleton]
    rfl
  · rfl

/-- Closed instantiation of `c4_metadata_invariant`, discharging its
membership hypothesis at a concrete pipeline output. -/
theorem c4_metadata_invariant_witness :
    (((⟨['a'], ['a'], 0, some 0, some 1⟩ : ProcessedLine).visual_start.isSome ↔
      (⟨['a'], ['a'], 0, some 0, some 1⟩ : ProcessedLine).word_length.isSome) ∧
    ((⟨['a'], ['a'], 0, some 0, some 1⟩ : ProcessedLine).visual_start.isSome = true →
      dictOnlyConfig.dictionary_order = true ∧
      dictOnlyConfig.use_entire_line = false)) := by
  apply c4_metadata_invariant unicodeModel dictOnlyConfig [['a']]
  have h1 : (process_lines unicodeModel dictOnlyConfig [['a']]).1
      = sort_processed_lines dictOnlyConfig
          (extracted unicodeModel dictOnlyConfig [['a']]) := rfl
  have h2 : extracted unicodeModel dictOnlyConfig [['a']]
      = [⟨['a'], ['a'], 0, some 0, some 1⟩] := by decide
  rw [h1, h2, sort_processed_lines_singleton]
  exact List.mem_singleton_self _

/-! ### Key preparation -/

def foldNormConfig : SortConfig :=
  { SortConfig.default with ignore_case := true, normalize := true }

def normOnlyConfig : SortConfig := { SortConfig.default with normalize := true }

def caseOnlyConfig : SortConfig := { SortConfig.default with ignore_case := true }

/-- C5: key preparation applies NFC first (when `normalize`), then
case-folding (when `ignore_case`), in that fixed order; lowercasing expands
İ to the two codepoints i, U+0307; and with both flags set the composed
"CAFÉ" and the decomposed "CAFE" + U+0301 produce the identical key "café". -/
theorem c5_prepare_key_order (M : CharModel) (cfg : SortConfig) (key : List Char) :
    (cfg.normalize = true → cfg.ignore_case = true →
      prepare_key M cfg key = M.toLowercase (M.nfc key)) ∧
    (cfg.normalize = true → cfg.ignore_case = false →
      prepare_key M cfg key = M.nfc key) ∧
    (cfg.normalize = false → cfg.ignore_case = true →
      prepare_key M cfg key = M.toLowercase key) ∧
    (cfg.normalize = false → cfg.ignore_case = false →
      prepare_key M cfg key = key) ∧
    uToLowercase [Char.ofNat 0x130] = ['i', Char.ofNat 0x307] ∧
    prepare_key unicodeModel foldNormConfig ("CAF".toList ++ [Char.ofNat 0xC9])
      = prepare_key unicodeModel foldNormConfig
          ("CAFE".toList ++ [Char.ofNat 0x301]) ∧
    prepare_key unicodeModel foldNormConfig ("CAF".toList ++ [Char.ofNat 0xC9])
      = "caf".toList ++ [Char.ofNat 0xE9] := by
  refine ⟨?_, ?_, ?_, ?_, by decide, by decide, by decide⟩ <;>
    (intro h1 h2; unfold prepare_key; rw [h1, h2]; rfl)

/-- Closed instantiation of `c5_prepare_key_order`, discharging its
hypotheses at the four flag combinations. -/
theorem c5_prepare_key_order_witness :
    prepare_key unicodeModel foldNormConfig ['A']
      = unicodeModel.toLowercase (unicodeModel.nfc ['A']) ∧
    prepare_key unicodeModel normOnlyConfig ['A'] = unicodeModel.nfc ['A'] ∧
    prepare_key unicodeModel caseOnlyConfig ['A']
      = unicodeModel.toLowercase ['A'] ∧
    prepare_key unicodeModel SortConfig.default ['A'] = ['A'] :=
  ⟨(c5_prepare_key_order unicodeModel foldNormConfig ['A']).1 rfl rfl,
   (c5_prepare_key_order unicodeModel normOnlyConfig ['A']).2.1 rfl rfl,
   (c5_prepare_key_order unicodeModel caseOnlyConfig ['A']).2.2.1 rfl rfl,
   (c5_prepare_key_order unicodeModel SortConfig.default ['A']).2.2.2.1 rfl rfl⟩

/-! ### The dictionary-extraction byte/character confusion -/

/-- C2 evaluated at the failing input "€a b" with dictionary order: because
the scan loop skips `start` iterator items where `start` is a byte index, the
extracted key is "a b" (containing a space) rather than the alphabetic run
"a", and `visual_start` stores the byte offset 3 although the first alphabetic
character sits at character offset 1. -/
theorem c2_dictionary_extraction_bug :
    process_lines_standard unicodeModel dictOnlyConfig ["€a b".toList]
      = [⟨"€a b".toList, "a b".toList, 0, some 3, some 1⟩] ∧
    (charIndices "€a b".toList).find? (fun p => uIsAlphabetic p.2)
      = some (3, 'a') ∧
    ("€a b".toList).take 1 ≠ "€".toList.take 0 := by
  refine ⟨by decide, by decide, by decide⟩

/-! ### Dropping keyless lines -/

theorem isEmpty_false_ne_nil (l : List Char) (h : l.isEmpty = false) : l ≠ [] := by
  intro hnil
  rw [hnil] at h
  cases h

theorem uNfc_ne_nil (l : List Char) (h : l ≠ []) : uNfc l ≠ [] := by
  cases l with
  | nil => exact absurd rfl h
  | cons c rest =>
    cases rest with
    | nil => simp [uNfc]
    | cons d rest2 =>
      by_cases hd : d.toNat = 0x301
      · cases hca : composeAcute c with
        | some e => simp [uNfc, hd, hca]
        | none => simp [uNfc, hd, hca]
      · simp [uNfc, hd]

theorem uLowerChar_ne_nil (c : Char) : uLowerChar c ≠ [] := by
  unfold uLowerChar
  split
  · simp
  · split
    · simp
    · split
      · simp
      · simp

theorem uToLowercase_ne_nil (l : List Char) (h : l ≠ []) : uToLowercase l ≠ [] := by
  cases l with
  | nil => exact absurd rfl h
  | cons c rest =>
    intro hh
    rw [uToLowercase, List.map_cons, List.flatten_cons] at hh
    exact uLowerChar_ne_nil c (List.append_eq_nil.1 hh).1

theorem prepare_key_unicode_ne_nil (cfg : SortConfig) (l : List Char)
    (h : l ≠ []) : prepare_key unicodeModel cfg l ≠ [] := by
  have h1 : (if cfg.normalize then unicodeModel.nfc l else l) ≠ [] := by
    cases hn : cfg.normalize
    · simp only [Bool.false_eq_true, if_false]
      exact h
    · simp only [if_true]
      exact uNfc_ne_nil l h
  unfold prepare_key
  cases hi : cfg.ignore_case
  · simp only [Bool.false_eq_true, if_false]
    exact h1
  · simp only [if_true]
    exact uToLowercase_ne_nil _ h1

def excludeConfig : SortConfig := { SortConfig.default with exclude_no_word := true }

/-- C6: with `exclude_no_word` set, every line whose prepared key is empty is
dropped — no surviving entry has an empty key, surviving entries keep their
distinct original indices and verbatim lines (gaps are never reused) — and on
`["", "hello world", "   "]` in default mode exactly the processed line for
"hello world" survives and the padding computation reflects it alone. -/
theorem c6_exclude_no_word (cfg : SortConfig) (lines : List (List Char))
    (hx : cfg.exclude_no_word = true) :
    (∀ p ∈ (process_lines unicodeModel cfg lines).1, p.key ≠ []) ∧
    ((process_lines unicodeModel cfg lines).1.map (fun p => p.index)).Nodup ∧
    (∀ p ∈ (process_lines unicodeModel cfg lines).1,
      lines[p.index]? = some p.original) ∧
    process_lines unicodeModel excludeConfig
      [([] : List Char), "hello world".toList, "   ".toList]
      = ([⟨"hello world".toList, "hello".toList, 1, none, none⟩], none) ∧
    compute_padding_info excludeConfig
      [⟨"hello world".toList, "hello".toList, 1, none, none⟩]
      = ⟨5, false⟩ := by
  have hperm : (process_lines unicodeModel cfg lines).1.Perm
      (extracted unicodeModel cfg lines) :=
    List.mergeSort_perm _ _
  refine ⟨?_, ?_, ?_, ?_, by decide⟩
  · intro p hp
    have hp' := hperm.mem_iff.1 hp
    cases hue : cfg.use_entire_line
    · rw [extracted_false _ _ _ hue, process_lines_standard_shape] at hp'
      obtain ⟨il, hil, rfl⟩ := List.mem_map.1 hp'
      have hq := List.of_mem_filter hil
      rw [hx] at hq
      intro hnil
      have hkey : (extractStandard unicodeModel cfg il.2).1 = [] := hnil
      have hemp : (extractStandard unicodeModel cfg il.2).1.isEmpty = true := by
        rw [hkey]; rfl
      rw [hemp] at hq
      exact absurd hq (by decide)
    · rw [extracted_true _ _ _ hue, process_lines_entire_line_shape] at hp'
      obtain ⟨il, hil, rfl⟩ := List.mem_map.1 hp'
      have hq := List.of_mem_filter hil
      rw [hx] at hq
      have hnn : il.2 ≠ [] := by
        intro hnil
        rw [hnil] at hq
        exact absurd hq (by decide)
      exact prepare_key_unicode_ne_nil cfg il.2 hnn
  · exact ((hperm.map (fun p => p.index)).nodup_iff).2
      (extracted_indices_nodup unicodeModel cfg lines)
  · intro p hp
    exact (extracted_mem_spec unicodeModel cfg lines).1 p (hperm.mem_iff.1 hp)
  · have h2 : extracted unicodeModel excludeConfig
        [([] : List Char), "hello world".toList, "   ".toList]
        = [⟨"hello world".toList, "hello".toList, 1, none, none⟩] := by decide
    show (sort_processed_lines excludeConfig (extracted unicodeModel excludeConfig
        [([] : List Char), "hello world".toList, "   ".toList]),
      if excludeConfig.right_align then
        some (compute_padding_info excludeConfig (extracted unicodeModel
          excludeConfig [([] : List Char), "hello world".toList, "   ".toList]))
      else none) = _
    rw [h2, sort_processed_lines_singleton]
    rfl

/-- Closed instantiation of `c6_exclude_no_word`, discharging its hypothesis
at a concrete configuration and input. -/
theorem c6_exclude_no_word_witness :
    (∀ p ∈ (process_lines unicodeModel excludeConfig
      [([] : List Char), "hello world".toList, "   ".toList]).1, p.key ≠ []) ∧
    ((process_lines unicodeModel excludeConfig
      [([] : List Char), "hello world".toList, "   ".toList]).1.map
        (fun p => p.index)).Nodup ∧
    (∀ p ∈ (process_lines unicodeModel excludeConfig
      [([] : List Char), "hello world".toList, "   ".toList]).1,
      ([([] : List Char), "hello world".toList, "   ".toList])[p.index]?
        = some p.original) ∧
    process_lines unicodeModel excludeConfig
      [([] : List Char), "hello world".toList, "   ".toList]
      = ([⟨"hello world".toList, "hello".toList, 1, none, none⟩], none) ∧
    compute_padding_info excludeConfig
      [⟨"hello world".toList, "hello".toList, 1, none, none⟩]
      = ⟨5, false⟩ :=
  c6_exclude_no_word excludeConfig
    [([] : List Char), "hello world".toList, "   ".toList] rfl

/-! ### Byte boundaries and slice safety -/

/-- `i` is a UTF-8 character boundary of `l` (including both ends). -/
def Boundary (l : List Char) (i : Nat) : Prop :=
  ∃ pre suf, l = pre ++ suf ∧ i = byteLen pre

theorem utf8Len_pos (c : Char) : 1 ≤ utf8Len c := by
  unfold utf8Len
  repeat' split
  all_goals omega

theorem byteLen_cons (c : Char) (l : List Char) :
    byteLen (c :: l) = utf8Len c + byteLen l := by
  simp [byteLen]

theorem byteLen_append (a b : List Char) :
    byteLen (a ++ b) = byteLen a + byteLen b := by
  simp [byteLen]

theorem byteLen_snoc (pre : List Char) (c : Char) :
    byteLen (pre ++ [c]) = byteLen pre + utf8Len c := by
  rw [byteLen_append]
  simp [byteLen]

theorem length_le_byteLen (l : List Char) : l.length ≤ byteLen l := by
  induction l with
  | nil => exact Nat.le_refl 0
  | cons c cs ih =>
    rw [byteLen_cons, List.length_cons]
    have := utf8Len_pos c
    omega

theorem sliceFrom?_zero (l : List Char) : sliceFrom? l 0 = some l := by
  cases l <;> rfl

theorem sliceTake?_zero (l : List Char) : sliceTake? l 0 = some [] := by
  cases l <;> rfl

theorem sliceFrom?_append (pre suf : List Char) :
    sliceFrom? (pre ++ suf) (byteLen pre) = some suf := by
  induction pre with
  | nil =>
    rw [List.nil_append]
    exact sliceFrom?_zero suf
  | cons c pre ih =>
    have hpos := utf8Len_pos c
    have hb : byteLen (c :: pre) = (utf8Len c + byteLen pre - 1) + 1 := by
      rw [byteLen_cons]; omega
    rw [List.cons_append, hb]
    simp only [sliceFrom?]
    rw [if_pos (by omega)]
    have harg : utf8Len c + byteLen pre - 1 + 1 - utf8Len c = byteLen pre := by omega
    rw [harg]
    exact ih

theorem sliceTake?_append (pre suf : List Char) :
    sliceTake? (pre ++ suf) (byteLen pre) = some pre := by
  induction pre with
  | nil =>
    rw [List.nil_append]
    exact sliceTake?_zero suf
  | cons c pre ih =>
    have hpos := utf8Len_pos c
    have hb : byteLen (c :: pre) = (utf8Len c + byteLen pre - 1) + 1 := by
      rw [byteLen_cons]; omega
    rw [List.cons_append, hb]
    simp only [sliceTake?]
    rw [if_pos (by omega)]
    have harg : utf8Len c + byteLen pre - 1 + 1 - utf8Len c = byteLen pre := by omega
    rw [harg, ih]
    rfl

theorem byteLen_le_decomp :
    ∀ (p1 s1 p2 s2 : List Char), p1 ++ s1 = p2 ++ s2 →
      byteLen p1 ≤ byteLen p2 → ∃ mid, p2 = p1 ++ mid ∧ s1 = mid ++ s2 := by
  intro p1
  induction p1 with
  | nil => intro s1 p2 s2 heq hle; exact ⟨p2, rfl, heq⟩
  | cons c p1 ih =>
    intro s1 p2 s2 heq hle
    cases p2 with
    | nil =>
      exfalso
      rw [byteLen_cons] at hle
      have := utf8Len_pos c
      have hz : byteLen ([] : List Char) = 0 := rfl
      omega
    | cons d p2 =>
      rw [List.cons_append, List.cons_append] at heq
      injection heq with h1 h2
      subst h1
      rw [byteLen_cons, byteLen_cons] at hle
      obtain ⟨mid, hm1, hm2⟩ := ih s1 p2 s2 h2 (by omega)
      exact ⟨mid, by rw [List.cons_append, hm1], hm2⟩

theorem sliceBytes?_isSome (l : List Char) (s e : Nat)
    (hs : Boundary l s) (he : Boundary l e) (hse : s ≤ e) :
    (sliceBytes? l s e).isSome = true := by
  obtain ⟨p1, s1, hl1, hs1⟩ := hs
  obtain ⟨p2, s2, hl2, he2⟩ := he
  obtain ⟨mid, hm1, hm2⟩ := byteLen_le_decomp p1 s1 p2 s2
    (by rw [← hl1, ← hl2]) (by omega)
  unfold sliceBytes?
  rw [if_pos hse, hs1]
  conv_lhs => rw [hl1]
  rw [sliceFrom?_append p1 s1]
  show (sliceTake? s1 (e - byteLen p1)).isSome = true
  have he' : e - byteLen p1 = byteLen mid := by
    rw [he2, hm1, byteLen_append]
    omega
  rw [hm2, he', sliceTake?_append mid s2]
  rfl

theorem charIndicesFrom_mem (l : List Char) :
    ∀ (n i : Nat) (c : Char), (i, c) ∈ charIndicesFrom n l →
      ∃ pre suf, l = pre ++ c :: suf ∧ i = n + byteLen pre := by
  induction l with
  | nil => intro n i c h; cases h
  | cons d rest ih =>
    intro n i c h
    rw [charIndicesFrom] at h
    rcases List.mem_cons.1 h with h1 | h1
    · have hi : i = n := congrArg Prod.fst h1
      have hc : c = d := congrArg Prod.snd h1
      subst hi; subst hc
      refine ⟨[], rest, rfl, ?_⟩
      have : byteLen ([] : List Char) = 0 := rfl
      omega
    · obtain ⟨pre, suf, hl, hi⟩ := ih (n + utf8Len d) i c h1
      refine ⟨d :: pre, suf, by rw [hl]; rfl, ?_⟩
      rw [hi, byteLen_cons]
      omega

theorem drop_charIndicesFrom (l : List Char) :
    ∀ (n k : Nat), (charIndicesFrom n l).drop k
      = charIndicesFrom (n + byteLen (l.take k)) (l.drop k) := by
  induction l with
  | nil =>
    intro n k
    simp [charIndicesFrom]
  | cons c rest ih =>
    intro n k
    cases k with
    | zero =>
      simp [byteLen]
    | succ k =>
      rw [charIndicesFrom, List.drop_succ_cons, List.take_succ_cons,
        List.drop_succ_cons, ih (n + utf8Len c) k]
      have : byteLen (c :: rest.take k) = utf8Len c + byteLen (rest.take k) :=
        byteLen_cons _ _
      rw [this]
      have harith : n + utf8Len c + byteLen (rest.take k)
          = n + (utf8Len c + byteLen (rest.take k)) := by omega
      rw [harith]

theorem dictLoop_invariant (M : CharModel) (line : List Char) :
    ∀ (l2 pre : List Char) (wordEnd vis : Nat) (inWord : Bool) (lb : Nat),
      line = pre ++ l2 → Boundary line wordEnd → lb ≤ wordEnd →
      lb ≤ byteLen pre →
      Boundary line
        (dictLoop M (charIndicesFrom (byteLen pre) l2) wordEnd vis inWord).1 ∧
      lb ≤ (dictLoop M (charIndicesFrom (byteLen pre) l2) wordEnd vis inWord).1 := by
  intro l2
  induction l2 with
  | nil =>
    intro pre wordEnd vis inWord lb hline hb hlbw hlbp
    simp only [charIndicesFrom, dictLoop]
    exact ⟨hb, hlbw⟩
  | cons c rest ih =>
    intro pre wordEnd vis inWord lb hline hb hlbw hlbp
    have hline' : line = (pre ++ [c]) ++ rest := by
      rw [hline, List.append_assoc]
      rfl
    have hb' : Boundary line (byteLen (pre ++ [c])) :=
      ⟨pre ++ [c], rest, hline', rfl⟩
    have hlbp' : lb ≤ byteLen (pre ++ [c]) := by
      rw [byteLen_snoc]
      omega
    rw [charIndicesFrom]
    by_cases ha : M.isAlphabetic c = true
    · simp only [dictLoop]
      rw [if_pos ha, show byteLen pre + utf8Len c = byteLen (pre ++ [c]) from
        (byteLen_snoc pre c).symm]
      exact ih (pre ++ [c]) (byteLen (pre ++ [c])) (vis + 1) true lb hline' hb'
        hlbp' hlbp'
    · by_cases hd : (c == '-' && inWord) = true
      · simp only [dictLoop]
        rw [if_neg ha, if_pos hd, show byteLen pre + utf8Len c
            = byteLen (pre ++ [c]) from (byteLen_snoc pre c).symm]
        exact ih (pre ++ [c]) (byteLen (pre ++ [c])) (vis + 1) inWord lb hline'
          hb' hlbp' hlbp'
      · by_cases hw : inWord = true
        · simp only [dictLoop]
          rw [if_neg ha, if_neg hd, if_pos hw]
          exact ⟨hb, hlbw⟩
        · simp only [dictLoop]
          rw [if_neg ha, if_neg hd, if_neg hw,
            show byteLen pre + utf8Len c = byteLen (pre ++ [c]) from
              (byteLen_snoc pre c).symm]
          exact ih (pre ++ [c]) wordEnd vis inWord lb hline' hb hlbw hlbp'

theorem stdLoop_invariant (M : CharModel) (line : List Char) :
    ∀ (l2 pre : List Char) (start stop : Nat) (inWord : Bool),
      line = pre ++ l2 →
      (inWord = true → Boundary line start ∧ start ≤ byteLen pre) →
      (stdLoop M (charIndicesFrom (byteLen pre) l2) start stop inWord).2.2 = true →
        Boundary line
          (stdLoop M (charIndicesFrom (byteLen pre) l2) start stop inWord).1 ∧
        ((stdLoop M (charIndicesFrom (byteLen pre) l2) start stop inWord).2.1
            = stop ∨
          (Boundary line
            (stdLoop M (charIndicesFrom (byteLen pre) l2) start stop inWord).2.1 ∧
          (stdLoop M (charIndicesFrom (byteLen pre) l2) start stop inWord).1
            ≤ (stdLoop M (charIndicesFrom (byteLen pre) l2) start stop inWord).2.1)) := by
  intro l2
  induction l2 with
  | nil =>
    intro pre start stop inWord hline hin
    simp only [charIndicesFrom, stdLoop]
    intro hw
    exact ⟨(hin hw).1, Or.inl trivial⟩
  | cons c rest ih =>
    intro pre start stop inWord hline hin
    have hline' : line = (pre ++ [c]) ++ rest := by
      rw [hline, List.append_assoc]
      rfl
    rw [charIndicesFrom]
    by_cases hws : M.isWhitespace c = true
    · by_cases hw : inWord = true
      · simp only [stdLoop]
        rw [if_pos hws, if_pos hw]
        intro _
        obtain ⟨hbs, hsp⟩ := hin hw
        exact ⟨hbs, Or.inr ⟨⟨pre, c :: rest, hline, rfl⟩, hsp⟩⟩
      · simp only [stdLoop]
        rw [if_pos hws, if_neg hw, show byteLen pre + utf8Len c
            = byteLen (pre ++ [c]) from (byteLen_snoc pre c).symm]
        exact ih (pre ++ [c]) start stop inWord hline'
          (fun hw' => absurd hw' hw)
    · by_cases hw : inWord = true
      · have hnw : (!inWord) = true → False := by
          rw [hw]
          intro hh
          cases hh
        simp only [stdLoop]
        rw [if_neg hws, if_neg hnw, show byteLen pre + utf8Len c
            = byteLen (pre ++ [c]) from (byteLen_snoc pre c).symm]
        refine ih (pre ++ [c]) start stop inWord hline' (fun _ => ?_)
        obtain ⟨hbs, hsp⟩ := hin hw
        refine ⟨hbs, ?_⟩
        rw [byteLen_snoc]
        omega
      · have hnw : (!inWord) = true := by
          cases hiw : inWord
          · rfl
          · exact absurd hiw hw
        simp only [stdLoop]
        rw [if_neg hws, if_pos hnw, show byteLen pre + utf8Len c
            = byteLen (pre ++ [c]) from (byteLen_snoc pre c).symm]
        refine ih (pre ++ [c]) (byteLen pre) stop true hline' (fun _ => ?_)
        refine ⟨⟨pre, c :: rest, hline, rfl⟩, ?_⟩
        rw [byteLen_snoc]
        have := utf8Len_pos c
        omega

theorem dictIndices_slice_valid (M : CharModel) (line : List Char) (s e v : Nat)
    (h : dictIndices M line = some (s, e, v)) :
    (sliceBytes? line s e).isSome = true := by
  unfold dictIndices at h
  cases hf : (charIndices line).find? (fun p => M.isAlphabetic p.2) with
  | none => rw [hf] at h; cases h
  | some p =>
    rw [hf] at h
    obtain ⟨a, ha, hfa⟩ := Option.map_eq_some'.1 h
    have hap : p = a := Option.some.inj ha
    subst hap
    have hs : p.1 = s := congrArg Prod.fst hfa
    have he : (dictLoop M ((charIndices line).drop p.1) p.1 0 false).1 = e :=
      congrArg (fun t => t.2.1) hfa
    subst hs
    have hmem : (p.1, p.2) ∈ charIndicesFrom 0 line := by
      rw [Prod.mk.eta]
      exact List.mem_of_find?_eq_some hf
    obtain ⟨pre, suf, hl, hi⟩ := charIndicesFrom_mem line 0 p.1 p.2 hmem
    have hi' : p.1 = byteLen pre := by omega
    have hlb : p.1 ≤ byteLen (line.take p.1) := by
      by_cases hk : p.1 ≤ line.length
      · have h1 : (line.take p.1).length = p.1 := by
          rw [List.length_take]
          exact min_eq_left hk
        calc p.1 = (line.take p.1).length := h1.symm
          _ ≤ byteLen (line.take p.1) := length_le_byteLen _
      · rw [List.take_of_length_le (by omega)]
        rw [hl, byteLen_append, byteLen_cons]
        have := utf8Len_pos p.2
        omega
    have hbstart : Boundary line p.1 := ⟨pre, p.2 :: suf, hl, hi'⟩
    have hdrop : (charIndices line).drop p.1
        = charIndicesFrom (byteLen (line.take p.1)) (line.drop p.1) := by
      unfold charIndices
      rw [drop_charIndicesFrom]
      have hz : 0 + byteLen (line.take p.1) = byteLen (line.take p.1) := by omega
      rw [hz]
    have hlineTD : line = line.take p.1 ++ line.drop p.1 :=
      (List.take_append_drop _ _).symm
    have hinv := dictLoop_invariant M line (line.drop p.1) (line.take p.1)
      p.1 0 false p.1 hlineTD hbstart (Nat.le_refl _) hlb
    rw [← hdrop] at hinv
    rw [he] at hinv
    exact sliceBytes?_isSome line p.1 e hbstart hinv.1 hinv.2

theorem stdIndices_slice_valid (M : CharModel) (line : List Char)
    (hw : (stdIndices M line).2.2 = true) :
    (sliceFrom? line (stdIndices M line).1).isSome = true ∧
    ((stdIndices M line).2.1 ≠ 0 →
      (sliceBytes? line (stdIndices M line).1 (stdIndices M line).2.1).isSome
        = true) := by
  have h0 : stdIndices M line
      = stdLoop M (charIndicesFrom (byteLen ([] : List Char)) line) 0 0 false := rfl
  have hinv := stdLoop_invariant M line line [] 0 0 false rfl
    (fun hh => by cases hh)
  rw [← h0] at hinv
  obtain ⟨hb, hsp⟩ := hinv hw
  constructor
  · obtain ⟨pre, suf, hl, hs⟩ := hb
    rw [hs, hl, sliceFrom?_append]
    rfl
  · intro hne
    rcases hsp with h1 | ⟨hbe, hle⟩
    · exact absurd h1 hne
    · exact sliceBytes?_isSome line _ _ hb hbe hle

/-- C9: the core is total — the pipeline returns a value for every model,
configuration and input, and every byte index the extraction slices with is a
valid character-boundary range: the dictionary-branch slice
`line[start..word_end]` and the default-branch slices `line[start..]` and
`line[start..end]` always succeed. -/
theorem c9_totality (M : CharModel) (cfg : SortConfig)
    (lines : List (List Char)) :
    (∃ out pad, process_lines M cfg lines = (out, pad)) ∧
    (∀ (line : List Char) (s e v : Nat), dictIndices M line = some (s, e, v) →
      (sliceBytes? line s e).isSome = true) ∧
    (∀ line : List Char, (stdIndices M line).2.2 = true →
      (sliceFrom? line (stdIndices M line).1).isSome = true ∧
      ((stdIndices M line).2.1 ≠ 0 →
        (sliceBytes? line (stdIndices M line).1
          (stdIndices M line).2.1).isSome = true)) :=
  ⟨⟨_, _, rfl⟩,
   fun line s e v h => dictIndices_slice_valid M line s e v h,
   fun line hw => stdIndices_slice_valid M line hw⟩

/-- Closed instantiation of `c9_totality`, discharging its hypotheses at
concrete lines. -/
theorem c9_totality_witness :
    (sliceBytes? ("€a b".toList) 3 6).isSome = true ∧
    (sliceFrom? ("hello world".toList)
      (stdIndices unicodeModel ("hello world".toList)).1).isSome = true ∧
    (sliceBytes? ("  hi there".toList)
      (stdIndices unicodeModel ("  hi there".toList)).1
      (stdIndices unicodeModel ("  hi there".toList)).2.1).isSome = true := by
  have h := c9_totality unicodeModel SortConfig.default []
  exact ⟨h.2.1 ("€a b".toList) 3 6 1 (by decide),
    (h.2.2 ("hello world".toList) (by decide)).1,
    (h.2.2 ("  hi there".toList) (by decide)).2 (by decide)⟩
